import Mathlib

/-!
Shallow embedding of `gitbrowse/git.py`: the revision-cursor and
line-correspondence engine (`GitFileHistory`), its blame parser, and its
line-mapping construction.  External processes (`git log`, `git show`,
`git blame`, `diff`) are modelled as environment records supplying their
output; each stateful method becomes a pure function on an explicit state,
returning its result, the successor state, and the number of external
queries it issued where a claim needs that count.
-/

/-- Embeds the class GitCommit: sha, author, first line of the message. -/
structure GitCommit where
  sha : String
  author : String
  message : String
deriving Repr, DecidableEq

/-- Embeds the class GitBlameLine: blame output for one line of the file. -/
structure GitBlameLine where
  sha : String
  line : String
  current : Bool
  original_line : String
  final_line : String
deriving Repr, DecidableEq

/-- Group categories produced by the diff invocation in
_build_line_mappings: u = unchanged, o = old-only (deleted),
n = new-only (added). -/
inductive GroupType where
  | u
  | o
  | n
deriving Repr, DecidableEq

/-- One parsed line of the grouped diff output: a category and a run
length, as parsed from lines such as "u 8". -/
structure DiffGroup where
  typ : GroupType
  numLines : Nat
deriving Repr, DecidableEq

/-- A Python dict from int line numbers to int-or-None, as an association
list: an entry (i, some j) is dict[i] = j, an entry (i, none) is
dict[i] = None (a deleted line); a key absent from the list is absent
from the dict.  Keys are inserted at most once by the builder, so
List.lookup is unambiguous. -/
abbrev LineMap := List (Nat × Option Nat)

/-- Lookup of a key in a LineMap (first matching entry). -/
def LineMap.find (m : LineMap) (k : Nat) : Option (Option Nat) :=
  List.lookup k m

/-- The body of the "u" branch of the for loop in _build_line_mappings:
for each of n unchanged lines record forward[start_ln] = finish_ln and
backward[finish_ln] = start_ln, then advance both cursors. -/
def addUnchanged : Nat → LineMap → LineMap → Nat → Nat →
    LineMap × LineMap × Nat × Nat
  | 0, fwd, bwd, s, f => (fwd, bwd, s, f)
  | k + 1, fwd, bwd, s, f =>
      addUnchanged k (fwd ++ [(s, some f)]) (bwd ++ [(f, some s)]) (s + 1) (f + 1)

/-- The body of the "o" branch: for each of n old-only lines record
forward[start_ln] = None and advance only the start cursor. -/
def addOld : Nat → LineMap → Nat → LineMap × Nat
  | 0, fwd, s => (fwd, s)
  | k + 1, fwd, s => addOld k (fwd ++ [(s, none)]) (s + 1)

/-- The body of the "n" branch: for each of n new-only lines record
backward[finish_ln] = None and advance only the finish cursor. -/
def addNew : Nat → LineMap → Nat → LineMap × Nat
  | 0, bwd, f => (bwd, f)
  | k + 1, bwd, f => addNew k (bwd ++ [(f, none)]) (f + 1)

/-- The for loop of _build_line_mappings over the parsed diff groups,
carrying (forward, backward, start_ln, finish_ln). -/
def processGroups : List DiffGroup → LineMap → LineMap → Nat → Nat →
    LineMap × LineMap × Nat × Nat
  | [], fwd, bwd, s, f => (fwd, bwd, s, f)
  | g :: gs, fwd, bwd, s, f =>
      match g.typ with
      | .u =>
          let r := addUnchanged g.numLines fwd bwd s f
          processGroups gs r.1 r.2.1 r.2.2.1 r.2.2.2
      | .o =>
          let r := addOld g.numLines fwd s
          processGroups gs r.1 bwd r.2 f
      | .n =>
          let r := addNew g.numLines bwd f
          processGroups gs fwd r.1 s r.2

/-- The trailing while loop of _build_line_mappings: while
start_ln <= start_len and finish_ln <= finish_len, record a 1:1
correspondence and advance both cursors (this intentionally runs one
position past the last line of each file). -/
def extendTail (fwd bwd : LineMap) (s f start_len finish_len : Nat) :
    LineMap × LineMap :=
  if s ≤ start_len ∧ f ≤ finish_len then
    extendTail (fwd ++ [(s, some f)]) (bwd ++ [(f, some s)])
      (s + 1) (f + 1) start_len finish_len
  else
    (fwd, bwd)
termination_by start_len + 1 - s
decreasing_by simp_wf; omega

/-- Embeds GitFileHistory._build_line_mappings, abstracted over its
inputs: the parsed grouped-diff lines and the two line counts obtained
from git show.  Returns (forward, backward). -/
def buildFromGroups (diffLines : List DiffGroup) (start_len finish_len : Nat) :
    LineMap × LineMap :=
  let r := processGroups diffLines [] [] 0 0
  extendTail r.1 r.2.1 r.2.2.1 r.2.2.2 start_len finish_len

/-- Environment for the external calls issued by _build_line_mappings:
contentLen r is the number of lines git show prints for revision r of the
file, and groups a b is the parsed grouped-diff output between the
contents at a and at b. -/
structure DiffEnv where
  contentLen : String → Nat
  groups : String → String → List DiffGroup

/-- Embeds _build_line_mappings(start, finish) against a DiffEnv. -/
def build_line_mappings (env : DiffEnv) (start finish : String) :
    LineMap × LineMap :=
  buildFromGroups (env.groups start finish)
    (env.contentLen start) (env.contentLen finish)

/-- Mutable state of a GitFileHistory object: the fields set in __init__
and mutated by next, prev, blame and line_mapping. -/
structure GFHState where
  path : String
  commits : List GitCommit
  index : Nat
  blameCache : Option (List GitBlameLine)
  lineMappings : List (String × LineMap)
deriving Repr, DecidableEq

/-- State of a freshly constructed GitFileHistory: _index = 0,
_blame = None, _line_mappings = {}. -/
def mkGFHState (path : String) (commits : List GitCommit) : GFHState :=
  { path := path, commits := commits, index := 0,
    blameCache := none, lineMappings := [] }

/-- Embeds the current_commit property, self.commits[self._index]
(none models the IndexError on an out-of-range index). -/
def current_commit (s : GFHState) : Option GitCommit :=
  s.commits.get? s.index

/-- Embeds GitFileHistory.next: move toward more recent commits.
Returns the Python return value and the successor state. -/
def stepNext (s : GFHState) : Bool × GFHState :=
  if s.index ≤ 0 then
    (false, s)
  else
    (true, { s with index := s.index - 1, blameCache := none })

/-- Embeds GitFileHistory.prev: move toward older commits.
Returns the Python return value and the successor state. -/
def stepPrev (s : GFHState) : Bool × GFHState :=
  if s.index ≥ s.commits.length - 1 then
    (false, s)
  else
    (true, { s with index := s.index + 1, blameCache := none })

/-- One cursor call, forward (next) or backward (prev). -/
inductive Step where
  | forward
  | backward
deriving Repr, DecidableEq

/-- Apply one Step, keeping only the successor state. -/
def applyStep (s : GFHState) : Step → GFHState
  | .forward => (stepNext s).2
  | .backward => (stepPrev s).2

/-- Apply a sequence of Steps left to right. -/
def applySteps (s : GFHState) : List Step → GFHState
  | [] => s
  | st :: rest => applySteps (applyStep s st) rest

/-- Python truthiness of self._blame: true iff it is neither None nor
the empty list (so the guard `if self._blame:` takes the cached path). -/
def blameTruthy : Option (List GitBlameLine) → Bool
  | some (_ :: _) => true
  | _ => false

/-- Python s.split(c) for a one-character separator, on the character
list: each occurrence of the separator ends a field, consecutive
separators yield empty fields, and the empty input yields one empty
field (Python: ''.split(' ') == ['']). -/
def splitOnChar (c : Char) : List Char → List (List Char)
  | [] => [[]]
  | x :: xs =>
      if x = c then [] :: splitOnChar c xs
      else
        match splitOnChar c xs with
        | r :: rs => (x :: r) :: rs
        | [] => [[x]]

/-- Python header.split(' '): split the string at every single space. -/
def splitSpaces (s : String) : List String :=
  (splitOnChar ' ' s.data).map (fun l => String.mk l)

/-- Python line.startswith(t) for the one-character tab marker: whether
the first character is a tab. -/
def startsWithTab (s : String) : Bool :=
  match s.data with
  | [] => false
  | c :: _ => c = '\t'

/-- Python line[1:]: the string without its first character. -/
def strDropOne (s : String) : String :=
  String.mk (s.data.drop 1)

/-- The inner skip loop of GitFileHistory.blame: read lines until one
starts with a tab; returns that line and the remaining stream, or none
if the stream is exhausted first (Python would then loop forever on
empty readline results, i.e. the input is malformed). -/
def skipToContent : List String → Option (String × List String)
  | [] => none
  | l :: rest => if startsWithTab l then some (l, rest) else skipToContent rest

/-- Consuming the stream up to the content line strictly shortens it. -/
theorem skipToContent_length_lt :
    ∀ (l : List String) (x : String) (r : List String),
      skipToContent l = some (x, r) → r.length < l.length := by
  intro l
  induction l with
  | nil => intro x r h; simp [skipToContent] at h
  | cons a t ih =>
      intro x r h
      by_cases hs : startsWithTab a
      · simp [skipToContent, hs] at h
        simp [h.2]
      · simp [skipToContent, hs] at h
        exact Nat.lt_succ_of_lt (ih x r h)

/-- The parsing loop of GitFileHistory.blame over the raw output lines of
git blame -p, one stream element per readline (EOF = end of list).
Each iteration reads a header, takes its first three space-separated
fields (fewer than three models the ValueError of tuple unpacking:
none), skips to the content line, strips its tab, and emits one
GitBlameLine with current = (sha == currentSha). -/
def parseBlameLines (currentSha : String) (input : List String) :
    Option (List GitBlameLine) :=
  match input with
  | [] => some []
  | header :: rest =>
      match splitSpaces header with
      | sha :: original_line :: final_line :: _ =>
          match hskip : skipToContent rest with
          | some (line, rest2) =>
              (parseBlameLines currentSha rest2).map (fun ls =>
                { sha := sha, line := strDropOne line,
                  current := sha == currentSha,
                  original_line := original_line,
                  final_line := final_line } :: ls)
          | none => none
      | _ => none
termination_by input.length
decreasing_by
  simp_wf
  exact Nat.lt_succ_of_lt (skipToContent_length_lt rest line rest2 hskip)

/-- Environment for blame: blameRaw sha is the raw line stream produced
by git blame -p for the file at that sha. -/
structure BlameEnv where
  blameRaw : String → List String

/-- Embeds GitFileHistory.blame: return the cached list if self._blame
is truthy, otherwise run and parse git blame -p at the current commit
and cache the result.  Returns (result, successor state, number of
external blame queries issued); a none result models a raised
exception (state unchanged by it, since self._blame is only assigned
after the parse loop finishes). -/
def blameOp (env : BlameEnv) (s : GFHState) :
    Option (List GitBlameLine) × GFHState × Nat :=
  if blameTruthy s.blameCache then
    (s.blameCache, s, 0)
  else
    match current_commit s with
    | none => (none, s, 0)
    | some c =>
        match parseBlameLines c.sha (env.blameRaw c.sha) with
        | some lines => (some lines, { s with blameCache := some lines }, 1)
        | none => (none, s, 1)

/-- The cache key used by line_mapping for the ordered pair
(start, finish): the string start + '/' + finish. -/
def lineMappingKey (start finish : String) : String :=
  start ++ "/" ++ finish

/-- Python dict assignment d[k] = v on an association list: overwrite
the existing entry for k, else append a new one. -/
def dictInsert (m : List (String × LineMap)) (k : String) (v : LineMap) :
    List (String × LineMap) :=
  if m.any (fun p => p.1 = k) then
    m.map (fun p => if p.1 = k then (k, v) else p)
  else
    m ++ [(k, v)]

/-- Embeds GitFileHistory.line_mapping(start, finish): serve the forward
direction from the cache when present, otherwise build both directions
once, store forward under start + '/' + finish and backward under
finish + '/' + start, and return forward.  The Nat counts calls to
_build_line_mappings (each of which issues content and diff queries). -/
def line_mapping (env : DiffEnv) (s : GFHState) (start finish : String) :
    LineMap × GFHState × Nat :=
  match s.lineMappings.lookup (lineMappingKey start finish) with
  | some m => (m, s, 0)
  | none =>
      let fb := build_line_mappings env start finish
      let c1 := dictInsert s.lineMappings (lineMappingKey start finish) fb.1
      let c2 := dictInsert c1 (lineMappingKey finish start) fb.2
      (fb.1, { s with lineMappings := c2 }, 1)

/-- The two construction failures of GitFileHistory.__init__, named as in
the specification: InvalidRevision for a revision that does not resolve,
UntrackedFile for a path git does not track. -/
inductive InitError where
  | invalidRevision
  | untrackedFile
deriving Repr, DecidableEq

/-- Environment for construction: whether git rev-parse accepts the
revision, whether git ls-files matches the path, and the parsed git log
output (newest-first commits touching the path). -/
structure GitEnv where
  revOk : String → Bool
  tracked : String → Bool
  log : String → String → List GitCommit

/-- Embeds GitFileHistory.__init__(path, start_commit): verify the
revision, then verify the file, then query the history.  Returns the
constructed state or the raised error, together with the number of
history (git log) queries issued. -/
def gfh_init (env : GitEnv) (path start_commit : String) :
    Except InitError GFHState × Nat :=
  if env.revOk start_commit = false then
    (.error .invalidRevision, 0)
  else if env.tracked path = false then
    (.error .untrackedFile, 0)
  else
    (.ok (mkGFHState path (env.log start_commit path)), 1)

/-!
Helper lemmas about LineMap lookups and the identity mapping shape.
-/

/-- Lookup distributes over append, preferring the left map. -/
theorem lookup_append_or {α β : Type} [BEq α] (l1 l2 : List (α × β)) (k : α) :
    List.lookup k (l1 ++ l2) = (List.lookup k l1).or (List.lookup k l2) := by
  induction l1 with
  | nil => simp [List.lookup]
  | cons p t ih =>
      obtain ⟨a, b⟩ := p
      cases hk : k == a <;> simp [List.lookup, hk, ih]

/-- Lookup misses when every key differs from the query. -/
theorem lookup_eq_none_of_ne {α β : Type} [BEq α] [LawfulBEq α]
    (l : List (α × β)) (k : α) (h : ∀ p ∈ l, p.1 ≠ k) :
    List.lookup k l = none := by
  induction l with
  | nil => simp [List.lookup]
  | cons p t ih =>
      obtain ⟨a, b⟩ := p
      have hka : k ≠ a := fun hh => h (a, b) (List.mem_cons_self _ _) hh.symm
      have hne : (k == a) = false := beq_false_of_ne hka
      have ht : List.lookup k t = none :=
        ih fun q hq => h q (List.mem_cons_of_mem _ hq)
      simp [List.lookup, hne, ht]

/-- All keys of a LineMap lie below a bound. -/
def keysBelow (m : LineMap) (b : Nat) : Prop := ∀ p ∈ m, p.1 < b

/-- Lookup misses at or above a key bound. -/
theorem find_eq_none_of_keysBelow (m : LineMap) (b k : Nat)
    (hb : keysBelow m b) (hk : b ≤ k) : LineMap.find m k = none := by
  exact lookup_eq_none_of_ne m k fun p hp => Nat.ne_of_lt (Nat.lt_of_lt_of_le (hb p hp) hk)

/-- A key bound is monotone. -/
theorem keysBelow_mono {m : LineMap} {b b' : Nat} (h : keysBelow m b)
    (hb : b ≤ b') : keysBelow m b' :=
  fun p hp => Nat.lt_of_lt_of_le (h p hp) hb

/-- Appending the entry at the bound raises the bound by one. -/
theorem keysBelow_append_single {m : LineMap} {b : Nat} (v : Option Nat)
    (h : keysBelow m b) : keysBelow (m ++ [(b, v)]) (b + 1) := by
  intro p hp
  rcases List.mem_append.mp hp with hl | hr
  · exact Nat.lt_succ_of_lt (h p hl)
  · rw [List.mem_singleton] at hr
    rw [hr]
    exact Nat.lt_succ_self b

/-- Explicit shape of the unchanged-run loop: it appends the 1:1
correspondence entries for the next n positions and advances both
cursors by n. -/
theorem addUnchanged_eq : ∀ (n : Nat) (fwd bwd : LineMap) (s f : Nat),
    addUnchanged n fwd bwd s f =
      (fwd ++ (List.range n).map (fun i => (s + i, some (f + i))),
       bwd ++ (List.range n).map (fun i => (f + i, some (s + i))),
       s + n, f + n) := by
  intro n
  induction n with
  | zero => intro fwd bwd s f; simp [addUnchanged]
  | succ k ih =>
      intro fwd bwd s f
      have hmap : ∀ (x y : Nat),
          (List.range (k + 1)).map (fun i => (x + i, some (y + i))) =
            (x, some y) :: (List.range k).map
              (fun i => (x + 1 + i, some (y + 1 + i))) := by
        intro x y
        rw [List.range_succ_eq_map]
        simp [List.map_map, Function.comp]
        intro a _
        omega
      rw [addUnchanged, ih]
      simp [hmap]
      omega

/-- Explicit shape of the old-only loop. -/
theorem addOld_eq : ∀ (n : Nat) (fwd : LineMap) (s : Nat),
    addOld n fwd s =
      (fwd ++ (List.range n).map (fun i => (s + i, (none : Option Nat))), s + n) := by
  intro n
  induction n with
  | zero => intro fwd s; simp [addOld]
  | succ k ih =>
      intro fwd s
      have hmap : (List.range (k + 1)).map (fun i => (s + i, (none : Option Nat))) =
          (s, (none : Option Nat)) :: (List.range k).map
            (fun i => (s + 1 + i, (none : Option Nat))) := by
        rw [List.range_succ_eq_map]
        simp [List.map_map, Function.comp]
        intro a _
        omega
      rw [addOld, ih]
      simp [hmap]
      omega

/-- Explicit shape of the new-only loop. -/
theorem addNew_eq : ∀ (n : Nat) (bwd : LineMap) (f : Nat),
    addNew n bwd f =
      (bwd ++ (List.range n).map (fun i => (f + i, (none : Option Nat))), f + n) := by
  intro n
  induction n with
  | zero => intro bwd f; simp [addNew]
  | succ k ih =>
      intro bwd f
      have hmap : (List.range (k + 1)).map (fun i => (f + i, (none : Option Nat))) =
          (f, (none : Option Nat)) :: (List.range k).map
            (fun i => (f + 1 + i, (none : Option Nat))) := by
        rw [List.range_succ_eq_map]
        simp [List.map_map, Function.comp]
        intro a _
        omega
      rw [addNew, ih]
      simp [hmap]
      omega

/-- The mapping the code produces for a revision against itself with N
lines: identity entries for lines 0 to N-1 from the unchanged run, plus
the end-of-file entry (N, N) from the trailing while loop. -/
def idMapN (N : Nat) : LineMap :=
  (List.range N).map (fun i => (i, some i)) ++ [(N, some N)]

/-- Lookup in the identity mapping. -/
theorem find_idMapN (N k : Nat) :
    LineMap.find (idMapN N) k = if k ≤ N then some (some k) else none := by
  unfold idMapN LineMap.find
  rw [lookup_append_or]
  by_cases hk : k < N
  · rw [List.lookup_graph (fun i => some i) (List.mem_range.mpr hk)]
    simp [Option.or]
    omega
  · have hnone : List.lookup k ((List.range N).map (fun i => (i, some i))) = none := by
      apply lookup_eq_none_of_ne
      intro p hp
      simp at hp
      obtain ⟨a, ha, hpa⟩ := hp
      rw [← hpa]
      omega
    rw [hnone]
    by_cases he : k = N
    · subst he
      simp [List.lookup, Option.or]
    · have hne : (k == N) = false := beq_false_of_ne he
      have hgt : ¬ k ≤ N := by omega
      simp [List.lookup, hne, Option.or, hgt]

/-- The trailing while loop exits when a cursor has passed its bound. -/
theorem extendTail_stop (fwd bwd : LineMap) (s f sl fl : Nat)
    (h : ¬(s ≤ sl ∧ f ≤ fl)) :
    extendTail fwd bwd s f sl fl = (fwd, bwd) := by
  rw [extendTail]
  simp [h]

/-- The trailing while loop iterates while both cursors are in bounds. -/
theorem extendTail_go (fwd bwd : LineMap) (s f sl fl : Nat)
    (h : s ≤ sl ∧ f ≤ fl) :
    extendTail fwd bwd s f sl fl =
      extendTail (fwd ++ [(s, some f)]) (bwd ++ [(f, some s)])
        (s + 1) (f + 1) sl fl := by
  rw [extendTail]
  simp [h]

/-- C2.  The claim fixes the grouped diff unchanged(1), new-only(1),
unchanged(1) over contents of 2 and 3 lines and asserts the forward map
is exactly \x7b0:0, 1:2\x7d; but the trailing while loop of
_build_line_mappings also records the end-of-file entry 2 -> 3, so the
computed forward map is defined at key 2 and is not that dict. -/
theorem c2_counterexample :
    ¬ (∀ k : Nat,
        LineMap.find
          (buildFromGroups [⟨GroupType.u, 1⟩, ⟨GroupType.n, 1⟩, ⟨GroupType.u, 1⟩]
            2 3).1 k =
        List.lookup k [(0, some 0), (1, some 2)]) := by
  intro h
  have h2 := h 2
  rw [show (buildFromGroups [⟨GroupType.u, 1⟩, ⟨GroupType.n, 1⟩, ⟨GroupType.u, 1⟩]
      2 3) =
      ([(0, some 0), (1, some 2), (2, some 3)],
       [(0, some 0), (1, none), (2, some 1), (3, some 2)]) from by
    simp [buildFromGroups, processGroups, addUnchanged, addNew,
      extendTail_go, extendTail_stop]] at h2
  exact absurd h2 (by decide)

/-- C2 (amended).  With start content of 2 lines, finish content of
3 lines and grouped diff unchanged(1), new-only(1), unchanged(1), the
mapping is forward \x7b0:0, 1:2, 2:3\x7d and backward
\x7b0:0, 1:deleted, 2:1, 3:2\x7d: the claimed entries plus the
end-of-file correspondence 2 -> 3 added by the trailing while loop. -/
theorem c2_insert_between_mapping :
    buildFromGroups [⟨GroupType.u, 1⟩, ⟨GroupType.n, 1⟩, ⟨GroupType.u, 1⟩] 2 3 =
      ([(0, some 0), (1, some 2), (2, some 3)],
       [(0, some 0), (1, none), (2, some 1), (3, some 2)]) := by
  simp [buildFromGroups, processGroups, addUnchanged, addNew,
    extendTail_go, extendTail_stop]

/-- A self-diff (one unchanged run of N lines over two N-line contents,
or an empty diff over empty contents) builds the identity mapping with
domain 0..N on both sides. -/
theorem buildFromGroups_self (N : Nat) (d : List DiffGroup)
    (hd : d = [⟨GroupType.u, N⟩] ∨ (N = 0 ∧ d = [])) :
    buildFromGroups d N N = (idMapN N, idMapN N) := by
  have hrange : (List.range N).map (fun i => (0 + i, some (0 + i))) =
      (List.range N).map (fun i => (i, some i)) := by
    simp
  rcases hd with hd | ⟨hN, hd⟩
  · subst hd
    unfold buildFromGroups
    simp only [processGroups]
    rw [addUnchanged_eq]
    simp only [processGroups, List.nil_append, hrange, Nat.zero_add]
    rw [extendTail_go _ _ _ _ _ _ ⟨Nat.le_refl N, Nat.le_refl N⟩]
    rw [extendTail_stop _ _ _ _ _ _ (by omega)]
    rfl
  · subst hN
    subst hd
    unfold buildFromGroups
    simp only [processGroups]
    rw [extendTail_go _ _ _ _ _ _ ⟨Nat.le_refl 0, Nat.le_refl 0⟩]
    rw [extendTail_stop _ _ _ _ _ _ (by omega)]
    rfl

/-- C3.  Mapping a revision with N lines to itself (grouped diff one
unchanged run of length N, or no runs for empty content) yields the
identity mapping defined at every index 0..N inclusive in both
directions, with no deleted entries in either direction. -/
theorem c3_self_mapping_identity (N : Nat) (d : List DiffGroup)
    (hd : d = [⟨GroupType.u, N⟩] ∨ (N = 0 ∧ d = [])) :
    (∀ i, i ≤ N →
        LineMap.find (buildFromGroups d N N).1 i = some (some i) ∧
        LineMap.find (buildFromGroups d N N).2 i = some (some i)) ∧
    (∀ i, LineMap.find (buildFromGroups d N N).1 i ≠ some none) ∧
    (∀ i, LineMap.find (buildFromGroups d N N).2 i ≠ some none) := by
  rw [buildFromGroups_self N d hd]
  refine ⟨fun i hi => ?_, fun i => ?_, fun i => ?_⟩
  · rw [find_idMapN, if_pos hi]
    exact ⟨rfl, rfl⟩
  · rw [find_idMapN]
    split <;> simp
  · rw [find_idMapN]
    split <;> simp

/-- C3 witness: the identity mapping property evaluated at N = 2, line 1. -/
theorem c3_self_mapping_identity_witness :
    LineMap.find (buildFromGroups [⟨GroupType.u, 2⟩] 2 2).1 1 = some (some 1) :=
  ((c3_self_mapping_identity 2 [⟨GroupType.u, 2⟩] (Or.inl rfl)).1 1
    (by decide)).1

/-- A single cursor call preserves the commit list and keeps the index
inside the history bounds. -/
theorem applyStep_invariant (s : GFHState) (st : Step)
    (h : s.index < s.commits.length) :
    (applyStep s st).index < (applyStep s st).commits.length ∧
    (applyStep s st).commits = s.commits := by
  cases st
  · unfold applyStep stepNext
    by_cases h0 : s.index ≤ 0
    · simp [h0]
      exact h
    · simp [h0]
      omega
  · unfold applyStep stepPrev
    by_cases hl : s.index ≥ s.commits.length - 1
    · simp [hl]
      exact h
    · simp [hl]
      omega

/-- Any sequence of cursor calls preserves the commit list and keeps the
index inside the history bounds. -/
theorem applySteps_invariant (steps : List Step) :
    ∀ s : GFHState, s.index < s.commits.length →
      (applySteps s steps).index < (applySteps s steps).commits.length ∧
      (applySteps s steps).commits = s.commits := by
  induction steps with
  | nil => intro s h; exact ⟨h, rfl⟩
  | cons st rest ih =>
      intro s h
      have h1 := applyStep_invariant s st h
      have h2 := ih (applyStep s st) h1.1
      exact ⟨h2.1, h2.2.trans h1.2⟩

/-- C4.  For a non-empty history the cursor index stays in
[0, length - 1] after any sequence of next/prev calls; next at index 0
returns False and leaves the state unchanged, prev at the last index
returns False and leaves the state unchanged, and from every other
in-bounds index the step returns True and moves the index by exactly
one. -/
theorem c4_cursor_bounds (path : String) (cs : List GitCommit)
    (hne : cs ≠ []) (steps : List Step) :
    (applySteps (mkGFHState path cs) steps).index < cs.length ∧
    (∀ s : GFHState, s.commits = cs → s.index < cs.length →
      ((s.index = 0 → (stepNext s).1 = false ∧ (stepNext s).2 = s) ∧
       (s.index ≠ 0 →
          (stepNext s).1 = true ∧ (stepNext s).2.index = s.index - 1) ∧
       (s.index = cs.length - 1 → (stepPrev s).1 = false ∧ (stepPrev s).2 = s) ∧
       (s.index ≠ cs.length - 1 →
          (stepPrev s).1 = true ∧ (stepPrev s).2.index = s.index + 1))) := by
  constructor
  · have h0 : (mkGFHState path cs).index < (mkGFHState path cs).commits.length := by
      simp [mkGFHState]
      exact List.length_pos.mpr hne
    have h := applySteps_invariant steps (mkGFHState path cs) h0
    rw [h.2] at h
    exact h.1
  · intro s hcs hlt
    refine ⟨fun h0 => ?_, fun h0 => ?_, fun hl => ?_, fun hl => ?_⟩
    · unfold stepNext
      simp [h0]
    · unfold stepNext
      have : ¬ s.index ≤ 0 := by omega
      simp [this]
    · unfold stepPrev
      have : s.index ≥ s.commits.length - 1 := by rw [hcs]; omega
      simp [this]
    · unfold stepPrev
      have : ¬ s.index ≥ s.commits.length - 1 := by
        rw [hcs]
        omega
      simp [this]

/-- C4 witness: a two-commit history, stepping backward then forward. -/
theorem c4_cursor_bounds_witness :
    (applySteps (mkGFHState "f" [⟨"a", "x", "m"⟩, ⟨"b", "y", "n"⟩])
        [Step.backward, Step.forward]).index < 2 ∧
    (stepNext (mkGFHState "f" [⟨"a", "x", "m"⟩, ⟨"b", "y", "n"⟩])).1 = false := by
  have h := c4_cursor_bounds "f" [⟨"a", "x", "m"⟩, ⟨"b", "y", "n"⟩]
    (by decide) [Step.backward, Step.forward]
  refine ⟨h.1, ?_⟩
  exact ((h.2 (mkGFHState "f" [⟨"a", "x", "m"⟩, ⟨"b", "y", "n"⟩]) rfl
    (by decide)).1 rfl).1

/-- C5.  A successful next or prev sets the blame cache to None, leaves
the line-mapping cache (and path and commits) unchanged, and moves the
index; a failed one returns the state unchanged; and the index moves
exactly when the call succeeds. -/
theorem c5_step_cache_effects (s : GFHState) :
    ((stepNext s).1 = true →
        (stepNext s).2.blameCache = none ∧
        (stepNext s).2.lineMappings = s.lineMappings ∧
        (stepNext s).2.path = s.path ∧
        (stepNext s).2.commits = s.commits ∧
        (stepNext s).2.index ≠ s.index) ∧
    ((stepNext s).1 = false → (stepNext s).2 = s) ∧
    ((stepPrev s).1 = true →
        (stepPrev s).2.blameCache = none ∧
        (stepPrev s).2.lineMappings = s.lineMappings ∧
        (stepPrev s).2.path = s.path ∧
        (stepPrev s).2.commits = s.commits ∧
        (stepPrev s).2.index ≠ s.index) ∧
    ((stepPrev s).1 = false → (stepPrev s).2 = s) ∧
    ((stepNext s).2.index ≠ s.index → (stepNext s).1 = true) ∧
    ((stepPrev s).2.index ≠ s.index → (stepPrev s).1 = true) := by
  unfold stepNext stepPrev
  by_cases h0 : s.index ≤ 0 <;> by_cases hl : s.index ≥ s.commits.length - 1 <;>
    simp [h0, hl] <;> omega

/-- C5 witness: the effects evaluated on a concrete two-commit state. -/
theorem c5_step_cache_effects_witness :
    (stepPrev (mkGFHState "f" [⟨"a", "x", "m"⟩, ⟨"b", "y", "n"⟩])).2.blameCache =
      none := by
  have h := c5_step_cache_effects (mkGFHState "f" [⟨"a", "x", "m"⟩, ⟨"b", "y", "n"⟩])
  exact (h.2.2.1 (by decide)).1

/-- C9.  Construction with a revision that does not resolve raises
InvalidRevision before any history (git log) query; construction with an
untracked path raises UntrackedFile, also without a history query; in
both cases no GFHState is produced. -/
theorem c9_init_errors (env : GitEnv) (path start_commit : String) :
    (env.revOk start_commit = false →
        gfh_init env path start_commit = (.error .invalidRevision, 0)) ∧
    (env.revOk start_commit = true → env.tracked path = false →
        gfh_init env path start_commit = (.error .untrackedFile, 0)) := by
  constructor
  · intro h
    unfold gfh_init
    simp [h]
  · intro h1 h2
    unfold gfh_init
    simp [h1, h2]

/-- C9 witness: both construction failures on concrete environments. -/
theorem c9_init_errors_witness :
    gfh_init ⟨fun _ => false, fun _ => true, fun _ _ => []⟩ "p" "r" =
      (.error .invalidRevision, 0) ∧
    gfh_init ⟨fun _ => true, fun _ => false, fun _ _ => []⟩ "p" "r" =
      (.error .untrackedFile, 0) :=
  ⟨(c9_init_errors ⟨fun _ => false, fun _ => true, fun _ _ => []⟩ "p" "r").1 rfl,
   (c9_init_errors ⟨fun _ => true, fun _ => false, fun _ _ => []⟩ "p" "r").2 rfl rfl⟩

/-- Splitting at a separator character absent from both left parts is
unambiguous. -/
theorem sep_append_inj (c : Char) :
    ∀ (a : List Char) (b : List Char) (a' b' : List Char),
      c ∉ a → c ∉ a' → a ++ c :: b = a' ++ c :: b' → a = a' ∧ b = b' := by
  intro a
  induction a with
  | nil =>
      intro b a' b' _ ha' h
      cases a' with
      | nil => simp at h; exact ⟨rfl, h⟩
      | cons y u =>
          simp at h
          exact absurd (by simp [← h.1] : c ∈ y :: u) ha'
  | cons x t ih =>
      intro b a' b' ha ha' h
      cases a' with
      | nil =>
          simp at h
          exact absurd (by simp [h.1] : c ∈ x :: t) ha
      | cons y u =>
          simp at h
          have hxt : c ∉ t := fun hc => ha (List.mem_cons_of_mem _ hc)
          have hyu : c ∉ u := fun hc => ha' (List.mem_cons_of_mem _ hc)
          have := ih b u b' hxt hyu h.2
          exact ⟨by rw [h.1, this.1], this.2⟩

/-- C10.  The line-mapping cache key is start + '/' + finish, so for
'/'-free revision identifiers two ordered pairs share a key exactly when
they are equal, while pairs with coinciding concatenations, such as
("a", "b/c") and ("a/b", "c"), produce the same key and are served from
the same cache entry: after line_mapping("a", "b/c") populates the cache,
line_mapping("a/b", "c") returns the very map cached by the first call
and performs no recomputation. -/
theorem c10_cache_key (s f s' f' : String)
    (hs : '/' ∉ s.data) (hf : '/' ∉ f.data)
    (hs' : '/' ∉ s'.data) (hf' : '/' ∉ f'.data) :
    (lineMappingKey s f = lineMappingKey s' f' ↔ (s = s' ∧ f = f')) ∧
    lineMappingKey "a" "b/c" = lineMappingKey "a/b" "c" ∧
    (∀ (env : DiffEnv) (path : String) (cs : List GitCommit),
        (line_mapping env
            (line_mapping env (mkGFHState path cs) "a" "b/c").2.1
            "a/b" "c").2.2 = 0 ∧
        (line_mapping env
            (line_mapping env (mkGFHState path cs) "a" "b/c").2.1
            "a/b" "c").1 =
          (line_mapping env (mkGFHState path cs) "a" "b/c").1) := by
  refine ⟨⟨fun h => ?_, fun h => by rw [h.1, h.2]⟩, by decide, ?_⟩
  · have hdata : s.data ++ '/' :: f.data = s'.data ++ '/' :: f'.data := by
      have h2 := congrArg String.data h
      simpa [lineMappingKey, String.data_append] using h2
    have := sep_append_inj '/' s.data f.data s'.data f'.data hs hs' hdata
    exact ⟨String.ext this.1, String.ext this.2⟩
  · intro env path cs
    have hkey : lineMappingKey "a/b" "c" = lineMappingKey "a" "b/c" := by decide
    have hne : lineMappingKey "b/c" "a" ≠ lineMappingKey "a" "b/c" := by decide
    simp only [line_mapping, mkGFHState, List.lookup, hkey, dictInsert]
    simp [hne, List.lookup]

/-- C10 witness: the collision equality extracted from the theorem at
'/'-free identifiers "a", "b". -/
theorem c10_cache_key_witness :
    lineMappingKey "a" "b/c" = lineMappingKey "a/b" "c" :=
  (c10_cache_key "a" "b" "a" "b" (by decide) (by decide) (by decide)
    (by decide)).2.1

/-- C6 (amended).  If a non-empty blame result is cached, blame() returns
it with the state unchanged and no external query; two consecutive
blame() calls with no intervening cursor movement return identical (by
value) results; and when the first call's result is non-empty, the second
call performs no retrieval.  (For an empty result the Python truthiness
guard `if self._blame:` treats the cache as absent and re-queries.) -/
theorem c6_blame_cache (env : BlameEnv) (s : GFHState) :
    (∀ l, s.blameCache = some l → l ≠ [] →
        blameOp env s = (some l, s, 0)) ∧
    (blameOp env (blameOp env s).2.1).1 = (blameOp env s).1 ∧
    (∀ l, (blameOp env s).1 = some l → l ≠ [] →
        (blameOp env (blameOp env s).2.1).2.2 = 0) := by
  refine ⟨?_, ?_, ?_⟩
  · intro l hl hne
    unfold blameOp
    rw [hl]
    cases l with
    | nil => exact absurd rfl hne
    | cons x xs => simp [blameTruthy]
  · by_cases ht : blameTruthy s.blameCache = true
    · simp [blameOp, ht]
    · cases hc : current_commit s with
      | none =>
          have hfirst : blameOp env s = (none, s, 0) := by
            simp [blameOp, ht, hc]
          rw [hfirst]
          simp [blameOp, ht, hc]
      | some c =>
          cases hp : parseBlameLines c.sha (env.blameRaw c.sha) with
          | none =>
              have hfirst : blameOp env s = (none, s, 1) := by
                simp [blameOp, ht, hc, hp]
              rw [hfirst]
              simp [blameOp, ht, hc, hp]
          | some lines =>
              have hfirst : blameOp env s =
                  (some lines, { s with blameCache := some lines }, 1) := by
                simp [blameOp, ht, hc, hp]
              rw [hfirst]
              cases lines with
              | nil =>
                  have hc2 : current_commit
                      { s with blameCache := some ([] : List GitBlameLine) } =
                        some c := hc
                  simp [blameOp, blameTruthy, hc2, hp]
              | cons x xs =>
                  simp [blameOp, blameTruthy]
  · intro l hres hne
    by_cases ht : blameTruthy s.blameCache = true
    · have hfirst : blameOp env s = (s.blameCache, s, 0) := by
        simp [blameOp, ht]
      rw [hfirst]
      simp [blameOp, ht]
    · cases hc : current_commit s with
      | none =>
          have hfirst : blameOp env s = (none, s, 0) := by
            simp [blameOp, ht, hc]
          rw [hfirst] at hres
          simp at hres
      | some c =>
          cases hp : parseBlameLines c.sha (env.blameRaw c.sha) with
          | none =>
              have hfirst : blameOp env s = (none, s, 1) := by
                simp [blameOp, ht, hc, hp]
              rw [hfirst] at hres
              simp at hres
          | some lines =>
              have hfirst : blameOp env s =
                  (some lines, { s with blameCache := some lines }, 1) := by
                simp [blameOp, ht, hc, hp]
              rw [hfirst] at hres ⊢
              simp at hres
              subst hres
              cases lines with
              | nil => exact absurd rfl hne
              | cons x xs => simp [blameOp, blameTruthy]

/-- C6 witness: a cached one-line blame is returned unchanged with no
query. -/
theorem c6_blame_cache_witness :
    blameOp ⟨fun _ => []⟩
      { path := "p", commits := [⟨"c", "a", "m"⟩], index := 0,
        blameCache := some [⟨"c", "x", true, "1", "1"⟩], lineMappings := [] } =
      (some [⟨"c", "x", true, "1", "1"⟩],
       { path := "p", commits := [⟨"c", "a", "m"⟩], index := 0,
         blameCache := some [⟨"c", "x", true, "1", "1"⟩],
         lineMappings := [] }, 0) :=
  (c6_blame_cache ⟨fun _ => []⟩ _).1 _ rfl (by simp)

/-- C6 counterexample.  At a commit whose git blame -p output is empty,
the first blame() call parses an empty line list and caches it, yet the
cached empty list fails the truthiness guard `if self._blame:`, so the
immediately following blame() call issues another external query (count
1, not 0), contradicting the claim that a call finding a cached result
for the position performs no retrieval. -/
theorem c6_counterexample :
    (blameOp ⟨fun _ => []⟩
        (mkGFHState "p" [⟨"c", "a", "m"⟩])).2.1.blameCache =
      some [] ∧
    (blameOp ⟨fun _ => []⟩
        (blameOp ⟨fun _ => []⟩ (mkGFHState "p" [⟨"c", "a", "m"⟩])).2.1).2.2 =
      1 := by
  constructor <;>
    simp [blameOp, mkGFHState, current_commit, blameTruthy, parseBlameLines]

/-- An environment with revisions "x/x" (one line of content) and "x"
(empty content) whose grouped diff for ("x/x", "x") is one old-only
line.  The two cache keys "x/x" + "/" + "x" and "x" + "/" + "x/x" of the
pair coincide with neither ordered pair being equal, exercising the
key-collision path of line_mapping. -/
def collidingEnv : DiffEnv :=
  { contentLen := fun r => if r = "x/x" then 1 else 0,
    groups := fun a b => if a = "x/x" ∧ b = "x" then [⟨.o, 1⟩] else [] }

/-- C8 counterexample.  For the pair ("x/x", "x") both cache keys equal
"x/x/x", so the second dict store of _build_line_mappings' results
overwrites the first: the forward map is never retained, and a second
line_mapping call for the same ordered pair returns the backward map,
which differs from the map the first call returned. -/
theorem c8_counterexample :
    (line_mapping collidingEnv
        (line_mapping collidingEnv (mkGFHState "p" []) "x/x" "x").2.1
        "x/x" "x").1 ≠
    (line_mapping collidingEnv (mkGFHState "p" []) "x/x" "x").1 := by
  have hg : collidingEnv.groups "x/x" "x" = [⟨.o, 1⟩] := rfl
  have hb : build_line_mappings collidingEnv "x/x" "x" =
      ([(0, none), (1, some 0)], [(0, some 1)]) := by
    rw [build_line_mappings, hg]
    show buildFromGroups [⟨.o, 1⟩] 1 0 = _
    simp [buildFromGroups, processGroups, addOld, extendTail_go, extendTail_stop]
  have h1 : line_mapping collidingEnv (mkGFHState "p" []) "x/x" "x" =
      ([(0, none), (1, some 0)],
       { path := "p", commits := [], index := 0, blameCache := none,
         lineMappings := [("x/x/x", [(0, some 1)])] }, 1) := by
    simp [line_mapping, mkGFHState, List.lookup, hb, dictInsert, lineMappingKey]
  rw [h1]
  have h2 : line_mapping collidingEnv
      { path := "p", commits := [], index := 0, blameCache := none,
        lineMappings := [("x/x/x", [(0, some 1)])] } "x/x" "x" =
      ([(0, some 1)],
       { path := "p", commits := [], index := 0, blameCache := none,
         lineMappings := [("x/x/x", [(0, some 1)])] }, 0) := by
    simp [line_mapping, List.lookup, lineMappingKey]
  rw [h2]
  decide

/-- C8 (amended).  For any pair of revisions whose two cache keys
start + '/' + finish and finish + '/' + start are distinct (in
particular any distinct '/'-free identifiers), the first
line_mapping(start, finish) call computes both directions in one pass
(exactly one _build_line_mappings invocation), stores the forward map
under (start, finish) and the backward map under (finish, start), and
returns the forward map; a subsequent call for either ordered pair
returns the identical cached map, leaves the cache unchanged, and
performs no recomputation. -/
theorem c8_cache_storage (env : DiffEnv) (path : String) (cs : List GitCommit)
    (start finish : String)
    (hk : lineMappingKey start finish ≠ lineMappingKey finish start) :
    line_mapping env (mkGFHState path cs) start finish =
      ((build_line_mappings env start finish).1,
       { path := path, commits := cs, index := 0, blameCache := none,
         lineMappings :=
           [(lineMappingKey start finish, (build_line_mappings env start finish).1),
            (lineMappingKey finish start, (build_line_mappings env start finish).2)] },
       1) ∧
    (line_mapping env (line_mapping env (mkGFHState path cs) start finish).2.1
        start finish) =
      ((build_line_mappings env start finish).1,
       (line_mapping env (mkGFHState path cs) start finish).2.1, 0) ∧
    (line_mapping env (line_mapping env (mkGFHState path cs) start finish).2.1
        finish start) =
      ((build_line_mappings env start finish).2,
       (line_mapping env (mkGFHState path cs) start finish).2.1, 0) := by
  have hne : (decide (lineMappingKey start finish = lineMappingKey finish start)) =
      false := decide_eq_false hk
  have hne2 : (lineMappingKey finish start == lineMappingKey start finish) =
      false := beq_false_of_ne (Ne.symm hk)
  have h1 : line_mapping env (mkGFHState path cs) start finish =
      ((build_line_mappings env start finish).1,
       { path := path, commits := cs, index := 0, blameCache := none,
         lineMappings :=
           [(lineMappingKey start finish, (build_line_mappings env start finish).1),
            (lineMappingKey finish start, (build_line_mappings env start finish).2)] },
       1) := by
    simp [line_mapping, mkGFHState, List.lookup, dictInsert, hne]
  refine ⟨h1, ?_, ?_⟩
  · rw [h1]
    simp [line_mapping, List.lookup]
  · rw [h1]
    simp [line_mapping, List.lookup, hne2]

/-- C8 witness: the caching behaviour at the '/'-free pair ("a", "b") in
an environment with empty contents and an empty diff. -/
theorem c8_cache_storage_witness :
    (line_mapping ⟨fun _ => 0, fun _ _ => []⟩
        (line_mapping ⟨fun _ => 0, fun _ _ => []⟩ (mkGFHState "p" []) "a" "b").2.1
        "a" "b").2.2 = 0 :=
  by
  have h := c8_cache_storage ⟨fun _ => 0, fun _ _ => []⟩ "p" [] "a" "b" (by decide)
  rw [h.2.1]

/-- The two maps of a LineMapping are mutually inverse on their non-None
(non-deleted) entries. -/
def InvMaps (fwd bwd : LineMap) : Prop :=
  ∀ i j : Nat,
    List.lookup i fwd = some (some j) ↔ List.lookup j bwd = some (some i)

/-- Inversion is symmetric in the two maps. -/
theorem InvMaps.symm {fwd bwd : LineMap} (h : InvMaps fwd bwd) :
    InvMaps bwd fwd :=
  fun i j => (h j i).symm

/-- Lookup in a one-entry map. -/
theorem lookup_single (k a : Nat) (v : Option Nat) :
    List.lookup k [(a, v)] = if k = a then some v else none := by
  by_cases h : k = a
  · subst h
    simp [List.lookup]
  · have hb : (k == a) = false := beq_false_of_ne h
    simp [List.lookup, hb, h]

/-- One direction of extending both maps with a fresh mutual pair. -/
theorem inv_extend_u_mp {fwd bwd : LineMap} {s f : Nat}
    (hf : keysBelow fwd s) (hb : keysBelow bwd f) (hinv : InvMaps fwd bwd) :
    ∀ i j : Nat, List.lookup i (fwd ++ [(s, some f)]) = some (some j) →
      List.lookup j (bwd ++ [(f, some s)]) = some (some i) := by
  intro i j h
  rw [lookup_append_or] at h
  rw [lookup_append_or]
  cases hfi : List.lookup i fwd with
  | none =>
      rw [hfi] at h
      simp [Option.or] at h
      rw [lookup_single] at h
      by_cases his : i = s
      · rw [if_pos his] at h
        have hjf : f = j := by simpa using h
        have hbf : List.lookup j bwd = none := by
          have := find_eq_none_of_keysBelow bwd f j hb (by omega)
          exact this
        rw [hbf]
        rw [lookup_single, if_pos (by omega : j = f)]
        simp [Option.or, his]
      · rw [if_neg his] at h
        exact absurd h (by simp)
  | some v =>
      rw [hfi] at h
      simp [Option.or] at h
      subst h
      have h2 := (hinv i j).mp hfi
      rw [h2]
      simp [Option.or]

/-- Extending both maps with the mutual pair (s, f) at the current
cursors preserves inversion. -/
theorem inv_extend_u {fwd bwd : LineMap} {s f : Nat}
    (hf : keysBelow fwd s) (hb : keysBelow bwd f) (hinv : InvMaps fwd bwd) :
    InvMaps (fwd ++ [(s, some f)]) (bwd ++ [(f, some s)]) := by
  intro i j
  constructor
  · exact inv_extend_u_mp hf hb hinv i j
  · exact inv_extend_u_mp hb hf hinv.symm j i

/-- Recording a deleted line in the forward map preserves inversion. -/
theorem inv_extend_o {fwd bwd : LineMap} (s : Nat) (hinv : InvMaps fwd bwd) :
    InvMaps (fwd ++ [(s, none)]) bwd := by
  intro i j
  rw [lookup_append_or]
  constructor
  · intro h
    cases hfi : List.lookup i fwd with
    | none =>
        rw [hfi] at h
        simp [Option.or] at h
        rw [lookup_single] at h
        by_cases his : i = s
        · rw [if_pos his] at h
          exact absurd h (by simp)
        · rw [if_neg his] at h
          exact absurd h (by simp)
    | some v =>
        rw [hfi] at h
        simp [Option.or] at h
        subst h
        exact (hinv i j).mp hfi
  · intro h
    have := (hinv i j).mpr h
    rw [this]
    simp [Option.or]

/-- Recording a deleted line in the backward map preserves inversion. -/
theorem inv_extend_n {fwd bwd : LineMap} (f : Nat) (hinv : InvMaps fwd bwd) :
    InvMaps fwd (bwd ++ [(f, none)]) :=
  (inv_extend_o f hinv.symm).symm

/-- The unchanged-run loop preserves key bounds and inversion. -/
theorem addUnchanged_invariant :
    ∀ (n : Nat) (fwd bwd : LineMap) (s f : Nat),
      keysBelow fwd s → keysBelow bwd f → InvMaps fwd bwd →
      keysBelow (addUnchanged n fwd bwd s f).1 (addUnchanged n fwd bwd s f).2.2.1 ∧
      keysBelow (addUnchanged n fwd bwd s f).2.1 (addUnchanged n fwd bwd s f).2.2.2 ∧
      InvMaps (addUnchanged n fwd bwd s f).1 (addUnchanged n fwd bwd s f).2.1 := by
  intro n
  induction n with
  | zero => intro fwd bwd s f hf hb hinv; exact ⟨hf, hb, hinv⟩
  | succ k ih =>
      intro fwd bwd s f hf hb hinv
      rw [addUnchanged]
      exact ih _ _ _ _ (keysBelow_append_single _ hf)
        (keysBelow_append_single _ hb) (inv_extend_u hf hb hinv)

/-- The old-only loop preserves the forward key bound and inversion,
leaving the backward map untouched. -/
theorem addOld_invariant :
    ∀ (n : Nat) (fwd bwd : LineMap) (s : Nat),
      keysBelow fwd s → InvMaps fwd bwd →
      keysBelow (addOld n fwd s).1 (addOld n fwd s).2 ∧
      InvMaps (addOld n fwd s).1 bwd := by
  intro n
  induction n with
  | zero => intro fwd bwd s hf hinv; exact ⟨hf, hinv⟩
  | succ k ih =>
      intro fwd bwd s hf hinv
      rw [addOld]
      exact ih _ bwd _ (keysBelow_append_single _ hf) (inv_extend_o s hinv)

/-- The new-only loop preserves the backward key bound and inversion,
leaving the forward map untouched. -/
theorem addNew_invariant :
    ∀ (n : Nat) (fwd bwd : LineMap) (f : Nat),
      keysBelow bwd f → InvMaps fwd bwd →
      keysBelow (addNew n bwd f).1 (addNew n bwd f).2 ∧
      InvMaps fwd (addNew n bwd f).1 := by
  intro n
  induction n with
  | zero => intro fwd bwd f hb hinv; exact ⟨hb, hinv⟩
  | succ k ih =>
      intro fwd bwd f hb hinv
      rw [addNew]
      exact ih fwd _ _ (keysBelow_append_single _ hb) (inv_extend_n f hinv)

/-- The diff-group loop preserves key bounds and inversion. -/
theorem processGroups_invariant :
    ∀ (gs : List DiffGroup) (fwd bwd : LineMap) (s f : Nat),
      keysBelow fwd s → keysBelow bwd f → InvMaps fwd bwd →
      keysBelow (processGroups gs fwd bwd s f).1
        (processGroups gs fwd bwd s f).2.2.1 ∧
      keysBelow (processGroups gs fwd bwd s f).2.1
        (processGroups gs fwd bwd s f).2.2.2 ∧
      InvMaps (processGroups gs fwd bwd s f).1
        (processGroups gs fwd bwd s f).2.1 := by
  intro gs
  induction gs with
  | nil => intro fwd bwd s f hf hb hinv; exact ⟨hf, hb, hinv⟩
  | cons g rest ih =>
      intro fwd bwd s f hf hb hinv
      obtain ⟨t, n⟩ := g
      cases t with
      | u =>
          have h := addUnchanged_invariant n fwd bwd s f hf hb hinv
          simpa [processGroups] using ih _ _ _ _ h.1 h.2.1 h.2.2
      | o =>
          have h := addOld_invariant n fwd bwd s hf hinv
          simpa [processGroups] using ih _ bwd _ f h.1 hb h.2
      | n =>
          have h := addNew_invariant n fwd bwd f hb hinv
          simpa [processGroups] using ih fwd _ s _ hf h.1 h.2

/-- The trailing while loop preserves inversion. -/
theorem extendTail_invariant (fwd bwd : LineMap) (s f sl fl : Nat) :
    keysBelow fwd s → keysBelow bwd f → InvMaps fwd bwd →
    InvMaps (extendTail fwd bwd s f sl fl).1
      (extendTail fwd bwd s f sl fl).2 := by
  induction fwd, bwd, s, f, sl, fl using extendTail.induct with
  | case1 fwd bwd s f sl fl h ih =>
      intro hf hb hinv
      rw [extendTail_go _ _ _ _ _ _ h]
      exact ih (keysBelow_append_single _ hf) (keysBelow_append_single _ hb)
        (inv_extend_u hf hb hinv)
  | case2 fwd bwd s f sl fl h =>
      intro hf hb hinv
      rw [extendTail_stop _ _ _ _ _ _ h]
      exact hinv

/-- The forward and backward maps built by _build_line_mappings are
mutually inverse on their non-deleted entries, for every grouped-diff
input and every pair of file lengths. -/
theorem buildFromGroups_invMaps (d : List DiffGroup) (sl fl : Nat) :
    InvMaps (buildFromGroups d sl fl).1 (buildFromGroups d sl fl).2 := by
  unfold buildFromGroups
  have hnil : keysBelow [] 0 := fun p hp => absurd hp (List.not_mem_nil p)
  have hinvnil : InvMaps [] [] := by
    intro i j
    simp [List.lookup]
  have h := processGroups_invariant d [] [] 0 0 hnil hnil hinvnil
  exact extendTail_invariant _ _ _ _ sl fl h.1 h.2.1 h.2.2

/-- Looking up the key just inserted by a dict store finds its value. -/
theorem lookup_dictInsert (m : List (String × LineMap)) (k : String)
    (v : LineMap) : List.lookup k (dictInsert m k v) = some v := by
  unfold dictInsert
  split
  · rename_i hany
    induction m with
    | nil => simp at hany
    | cons p t ih =>
        obtain ⟨a, w⟩ := p
        rw [List.map_cons]
        by_cases hp : a = k
        · subst hp
          rw [show (if ((a, w) : String × LineMap).1 = a then (a, v) else (a, w)) =
              (a, v) from if_pos rfl]
          simp [List.lookup]
        · have ht : t.any (fun q => decide (q.1 = k)) = true := by
            simp at hany ⊢
            rcases hany with h1 | h2
            · exact absurd h1 hp
            · exact h2
          have hb : (k == a) = false := beq_false_of_ne fun hh => hp hh.symm
          rw [show (if ((a, w) : String × LineMap).1 = k then (k, v) else (a, w)) =
              (a, w) from if_neg hp]
          simp [List.lookup, hb]
          exact ih ht
  · rename_i hany
    rw [lookup_append_or]
    have hm : List.lookup k m = none := by
      apply lookup_eq_none_of_ne
      intro p hp hpk
      apply hany
      rw [List.any_eq_true]
      exact ⟨p, hp, by simp [hpk]⟩
    rw [hm]
    simp [Option.or, List.lookup]

/-- C1.  For every environment, pair of revisions A, B and grouped-diff
input: the first line_mapping(A, B) call on a fresh engine performs the
single _build_line_mappings computation and returns its forward map; the
following line_mapping(B, A) call performs no recomputation and returns
the backward map of that same single computation; and the two returned
maps are exact inverses on non-deleted entries: forward[i] = j (j not
deleted) iff backward[j] = i.  The statement is symmetric in A and B, so
computing either direction first yields the pair of one cached
computation. -/
theorem c1_bidirectional_inverse (env : DiffEnv) (path : String)
    (cs : List GitCommit) (A B : String) (i j : Nat) :
    (line_mapping env (mkGFHState path cs) A B).2.2 = 1 ∧
    (line_mapping env (line_mapping env (mkGFHState path cs) A B).2.1
        B A).2.2 = 0 ∧
    (line_mapping env (mkGFHState path cs) A B).1 =
      (build_line_mappings env A B).1 ∧
    (line_mapping env (line_mapping env (mkGFHState path cs) A B).2.1
        B A).1 = (build_line_mappings env A B).2 ∧
    (LineMap.find (line_mapping env (mkGFHState path cs) A B).1 i =
        some (some j) ↔
      LineMap.find (line_mapping env
          (line_mapping env (mkGFHState path cs) A B).2.1 B A).1 j =
        some (some i)) := by
  have h1 : line_mapping env (mkGFHState path cs) A B =
      ((build_line_mappings env A B).1,
       { path := path, commits := cs, index := 0, blameCache := none,
         lineMappings :=
           dictInsert
             (dictInsert [] (lineMappingKey A B) (build_line_mappings env A B).1)
             (lineMappingKey B A) (build_line_mappings env A B).2 }, 1) := by
    simp [line_mapping, mkGFHState, List.lookup]
  have h2 : line_mapping env
      { path := path, commits := cs, index := 0, blameCache := none,
        lineMappings :=
          dictInsert
            (dictInsert [] (lineMappingKey A B) (build_line_mappings env A B).1)
            (lineMappingKey B A) (build_line_mappings env A B).2 } B A =
      ((build_line_mappings env A B).2,
       { path := path, commits := cs, index := 0, blameCache := none,
         lineMappings :=
           dictInsert
             (dictInsert [] (lineMappingKey A B) (build_line_mappings env A B).1)
             (lineMappingKey B A) (build_line_mappings env A B).2 }, 0) := by
    simp [line_mapping, lookup_dictInsert]
  rw [h1]
  rw [show (((build_line_mappings env A B).1,
      { path := path, commits := cs, index := 0, blameCache := none,
        lineMappings :=
          dictInsert
            (dictInsert [] (lineMappingKey A B) (build_line_mappings env A B).1)
            (lineMappingKey B A) (build_line_mappings env A B).2 }, 1) :
      LineMap × GFHState × Nat).2.1 =
      { path := path, commits := cs, index := 0, blameCache := none,
        lineMappings :=
          dictInsert
            (dictInsert [] (lineMappingKey A B) (build_line_mappings env A B).1)
            (lineMappingKey B A) (build_line_mappings env A B).2 } from rfl]
  rw [h2]
  refine ⟨rfl, rfl, rfl, rfl, ?_⟩
  exact buildFromGroups_invMaps (env.groups A B) (env.contentLen A)
    (env.contentLen B) i j

/-- One well-formed entry of git blame -p output: the header line, the
commit-metadata annotation lines that follow it, and the content line. -/
structure BlameEntry where
  header : String
  meta : List String
  content : String

/-- Well-formedness of a raw blame entry as git emits it: the header has
at least three space-separated fields, no metadata line begins with the
tab content marker, and the content line does. -/
def wfBlameEntry (e : BlameEntry) : Prop :=
  2 < (splitSpaces e.header).length ∧
  (∀ l ∈ e.meta, startsWithTab l = false) ∧
  startsWithTab e.content = true

/-- The raw line stream of one entry. -/
def renderBlameEntry (e : BlameEntry) : List String :=
  e.header :: (e.meta ++ [e.content])

/-- The GitBlameLine the specification predicts for one entry: sha,
original line and final line are the header's first three fields, the
text is the content line with its one-character marker stripped, and
current holds exactly when the sha equals the current commit's sha. -/
def expectedBlameLine (currentSha : String) (e : BlameEntry) : GitBlameLine :=
  match splitSpaces e.header with
  | sha :: original_line :: final_line :: _ =>
      { sha := sha, line := strDropOne e.content,
        current := sha == currentSha,
        original_line := original_line, final_line := final_line }
  | _ =>
      { sha := "", line := "", current := false,
        original_line := "", final_line := "" }

/-- The skip loop passes over the metadata lines and stops at the first
line bearing the tab marker. -/
theorem skipToContent_through (meta : List String) (content : String)
    (rest : List String)
    (hm : ∀ l ∈ meta, startsWithTab l = false)
    (hc : startsWithTab content = true) :
    skipToContent (meta ++ content :: rest) = some (content, rest) := by
  induction meta with
  | nil => simp [skipToContent, hc]
  | cons m t ih =>
      have hmf : startsWithTab m = false := hm m (List.mem_cons_self _ _)
      simp [skipToContent, hmf]
      exact ih fun l hl => hm l (List.mem_cons_of_mem _ hl)

/-- C7.  On a well-formed raw blame stream, the parsing loop of blame()
emits exactly one GitBlameLine per header: sha, original line and final
line are the header's first three space-separated fields, the lines not
beginning with the tab marker are skipped, the first marker line with
the marker stripped becomes the text, current is set exactly when the
entry's sha equals the current commit's sha, and parsing stops exactly
when no header line remains. -/
theorem c7_blame_parsing (currentSha : String) (entries : List BlameEntry)
    (hwf : ∀ e ∈ entries, wfBlameEntry e) :
    parseBlameLines currentSha (entries.map renderBlameEntry).flatten =
      some (entries.map (expectedBlameLine currentSha)) := by
  induction entries with
  | nil =>
      rw [show (List.map renderBlameEntry []).flatten = [] from rfl]
      rw [parseBlameLines]
      rfl
  | cons e t ih =>
      obtain ⟨hlen, hmeta, hcont⟩ := hwf e (List.mem_cons_self _ _)
      obtain ⟨sha, ol, fl, rest4, hsplit⟩ :
          ∃ a b c l, splitSpaces e.header = a :: b :: c :: l := by
        rcases hs : splitSpaces e.header with _ | ⟨a, _ | ⟨b, _ | ⟨c, l⟩⟩⟩ <;>
          rw [hs] at hlen
        · simp at hlen
        · simp at hlen
        · simp at hlen
        · exact ⟨a, b, c, l, rfl⟩
      have hflat : (List.map renderBlameEntry (e :: t)).flatten =
          e.header ::
            (e.meta ++ e.content :: (List.map renderBlameEntry t).flatten) := by
        simp [renderBlameEntry]
      rw [hflat]
      have hskip : skipToContent
          (e.meta ++ e.content :: (List.map renderBlameEntry t).flatten) =
          some (e.content, (List.map renderBlameEntry t).flatten) :=
        skipToContent_through e.meta e.content _ hmeta hcont
      rw [parseBlameLines]
      simp only [hsplit]
      split
      · rename_i line rest2 heq
        rw [hskip] at heq
        injection heq with heq2
        injection heq2 with h1 h2
        rw [← h1, ← h2]
        rw [ih fun x hx => hwf x (List.mem_cons_of_mem _ hx)]
        rw [List.map_cons]
        rw [show expectedBlameLine currentSha e =
            { sha := sha, line := strDropOne e.content,
              current := sha == currentSha,
              original_line := ol, final_line := fl } from by
          unfold expectedBlameLine
          rw [hsplit]]
        rfl
      · rename_i heq
        rw [hskip] at heq
        exact absurd heq (by simp)

/-- C7 witness: a two-entry stream with one metadata line each, at a
current sha matching the first entry. -/
theorem c7_blame_parsing_witness :
    parseBlameLines "abc"
      (List.map renderBlameEntry
        [⟨"abc 1 1", ["author X"], "\thello"⟩,
         ⟨"def 2 2 1", ["author Y", "summary z"], "\tworld"⟩]).flatten =
      some
        [⟨"abc", "hello", true, "1", "1"⟩,
         ⟨"def", "world", false, "2", "2"⟩] := by
  rw [c7_blame_parsing "abc"
    [⟨"abc 1 1", ["author X"], "\thello"⟩,
     ⟨"def 2 2 1", ["author Y", "summary z"], "\tworld"⟩]
    (by
      intro e he
      simp at he
      rcases he with he | he <;> rw [he] <;>
        exact ⟨by decide, by decide, by decide⟩)]
  decide
